import Mathlib

/-!
Shallow embedding of the release subsystem of this repository
(`scripts/_lib/release.py`): tag resolution, semantic version increment,
commit harvesting, commit categorization and release-note rendering.

Python strings are modelled as `List Char` (`Str`), which matches Python's
view of a string as a sequence of Unicode code points.  A subprocess
invocation (`subprocess.run` of a git query) is modelled by its observable
result: a `QueryResult` carrying the exit code and the captured stdout
(`none` standing for Python's `stdout is None`).  Functions that shell out
take the corresponding `QueryResult` as an explicit argument.
-/

/-- Python strings as sequences of characters. -/
abbrev Str := List Char

/-- Result of running a subprocess query: exit status and captured stdout
(`none` models `stdout is None`). -/
structure QueryResult where
  returncode : Int
  stdout : Option Str
deriving DecidableEq, Repr

/-- Python `str.split(sep)` for a one-character separator `sep`:
splits on every occurrence, keeping empty pieces; `"".split(sep) == [""]`. -/
def splitOnChar (sep : Char) : Str → List Str
  | [] => [[]]
  | c :: rest =>
    if c = sep then [] :: splitOnChar sep rest
    else
      match splitOnChar sep rest with
      | [] => [[c]]
      | r :: rs => (c :: r) :: rs

/-- Python `str.split(sep, maxsplit)` for a one-character separator:
splits on at most `maxsplit` occurrences, the remainder staying intact. -/
def splitOnCharMax (sep : Char) : Nat → Str → List Str
  | _, [] => [[]]
  | 0, s => [s]
  | m + 1, c :: rest =>
    if c = sep then [] :: splitOnCharMax sep m rest
    else
      match splitOnCharMax sep (m + 1) rest with
      | [] => [[c]]
      | r :: rs => (c :: r) :: rs

/-- Python `str.strip()`: remove whitespace from both ends.  (Python strips
all Unicode whitespace; the inputs of interest only carry ASCII whitespace,
covered by `Char.isWhitespace`.) -/
def stripStr (s : Str) : Str :=
  ((s.dropWhile Char.isWhitespace).reverse.dropWhile Char.isWhitespace).reverse

/-- Python `str.lstrip("v")`: remove every leading `'v'`. -/
def lstripV (s : Str) : Str := s.dropWhile (fun c => c = 'v')

/-- Matcher for the regex fragment `\d+\.\d+\.\d+` anchored at both ends of
`s`.  Greedy `\d+` with backtracking is equivalent to maximal munch here
because no digit equals `'.'`. -/
def matchNum3 (s : Str) : Bool :=
  let d1 := s.takeWhile Char.isDigit
  let r1 := s.dropWhile Char.isDigit
  !d1.isEmpty &&
    match r1 with
    | '.' :: r1' =>
      let d2 := r1'.takeWhile Char.isDigit
      let r2 := r1'.dropWhile Char.isDigit
      !d2.isEmpty &&
        match r2 with
        | '.' :: r2' =>
          let d3 := r2'.takeWhile Char.isDigit
          let r3 := r2'.dropWhile Char.isDigit
          !d3.isEmpty && r3.isEmpty
        | _ => false
    | _ => false

/-- Model of `re.match(r"^v?\d+\.\d+\.\d+$", tag)` as a Boolean test.  The optional
`v?` commits iff the head is `'v'` (a backtracked `v?` would have to match
`\d` against `'v'`, which fails).  `$` is modelled as end-of-string: tags
arise from splitting on `'\n'`, so they never contain the newline that
Python's `$` could otherwise tolerate. -/
def matchSemverTag (s : Str) : Bool :=
  if s.head? = some 'v' then matchNum3 s.tail else matchNum3 s

/-- Function `get_latest_tag` from `release.py`, as a function of the result of the
`git tag --sort=-v:refname` query: on non-zero exit return `none`; otherwise
scan the stripped-and-split output for the first tag matching
`^v?\d+\.\d+\.\d+$` and return it with leading `v` stripped. -/
def findTag : List Str → Option Str
  | [] => none
  | t :: rest => if matchSemverTag t then some (lstripV t) else findTag rest

def get_latest_tag (res : QueryResult) : Option Str :=
  if res.returncode ≠ 0 then none
  else findTag (splitOnChar '\n' (stripStr (res.stdout.getD [])))

/-- Decimal digit character for `d < 10`. -/
def digitChar (d : Nat) : Char := Char.ofNat (48 + d)

/-- Decimal rendering worker; `fuel ≥ n` suffices for full rendering. -/
def natToStrAux : Nat → Nat → Str
  | 0, _ => []
  | _ + 1, 0 => []
  | f + 1, n + 1 => natToStrAux f ((n + 1) / 10) ++ [digitChar ((n + 1) % 10)]

/-- Decimal rendering of a natural number, as Python's `f"{n}"`. -/
def natToStr (n : Nat) : Str :=
  if n = 0 then ['0'] else natToStrAux n n

/-- Python `int(s)` restricted to the canonical non-negative decimal forms
that semantic-version components take (the data model's SemanticVersion has
three non-negative integers); any other input raising or out of scope is
`none`. -/
def parseNat? (s : Str) : Option Nat :=
  if !s.isEmpty && s.all Char.isDigit then
    some (s.foldl (fun a c => a * 10 + (c.toNat - 48)) 0)
  else none

/-- The `[int(x) for x in version.split(".")]` parse of `increment_version`. -/
def parseVersion (s : Str) : Option (List Nat) :=
  (splitOnChar '.' s).mapM parseNat?

/-- Function `increment_version` from `release.py`: split on `'.'`, parse the parts
as integers, and rebuild per the bump kind (`"major"`, `"minor"`, anything
else meaning patch).  A Python exception (bad integer literal, missing
part) is `none`. -/
def increment_version (version : Str) (bump : Str) : Option Str :=
  match parseVersion version with
  | none => none
  | some parts =>
    if bump = "major".data then
      match parts[0]? with
      | some p0 => some (natToStr (p0 + 1) ++ ".0.0".data)
      | none => none
    else if bump = "minor".data then
      match parts[0]?, parts[1]? with
      | some p0, some p1 => some (natToStr p0 ++ ['.'] ++ natToStr (p1 + 1) ++ ".0".data)
      | _, _ => none
    else
      match parts[0]?, parts[1]?, parts[2]? with
      | some p0, some p1, some p2 =>
        some (natToStr p0 ++ ['.'] ++ natToStr p1 ++ ['.'] ++ natToStr (p2 + 1))
      | _, _, _ => none

/-- A commit record as exposed by `get_commits_since_tag`:
`{"message": parts[0], "hash": parts[1]}`. -/
structure Commit where
  message : Str
  hash : Str
deriving DecidableEq, Repr

/-- One line of `git log --pretty=format:%s|%h|%an` output:
`line.split("|", maxsplit=2)`, accepted iff it has at least two parts. -/
def parseCommitLine (line : Str) : Option Commit :=
  match splitOnCharMax '|' 2 line with
  | m :: h :: _ => some ⟨m, h⟩
  | _ => none

/-- Function `get_commits_since_tag` from `release.py`, as a function of the result
of the `git log v{tag}..HEAD` query. -/
def get_commits_since_tag (res : QueryResult) : List Commit :=
  let stdout := res.stdout.getD []
  if res.returncode ≠ 0 || (stripStr stdout).isEmpty then []
  else (splitOnChar '\n' (stripStr stdout)).filterMap parseCommitLine

/-- The six fixed buckets of `categorize_commits` (a Python dict with the
six keys `feat, fix, perf, refactor, docs, other`, all initialised). -/
structure Categories where
  feat : List Str
  fix : List Str
  perf : List Str
  refactor : List Str
  docs : List Str
  other : List Str
deriving DecidableEq, Repr

def initCats : Categories := ⟨[], [], [], [], [], []⟩

/-- Loop body of `categorize_commits`: the if/elif chain of
`msg.startswith(...)` tests, appending to the first matching bucket. -/
def addCommit (cats : Categories) (commit : Commit) : Categories :=
  let msg := commit.message
  if "feat".data.isPrefixOf msg then { cats with feat := cats.feat ++ [msg] }
  else if "fix".data.isPrefixOf msg then { cats with fix := cats.fix ++ [msg] }
  else if "perf".data.isPrefixOf msg then { cats with perf := cats.perf ++ [msg] }
  else if "refactor".data.isPrefixOf msg then { cats with refactor := cats.refactor ++ [msg] }
  else if "docs".data.isPrefixOf msg then { cats with docs := cats.docs ++ [msg] }
  else { cats with other := cats.other ++ [msg] }

/-- Function `categorize_commits` from `release.py`. -/
def categorize_commits (commits : List Commit) : Categories :=
  commits.foldl addCommit initCats

/-- Category keys, for stating bucket properties uniformly. -/
inductive Cat where
  | feat | fix | perf | refactor | docs | other
deriving DecidableEq, Repr

/-- Bucket lookup. -/
def bucket (cats : Categories) : Cat → List Str
  | .feat => cats.feat
  | .fix => cats.fix
  | .perf => cats.perf
  | .refactor => cats.refactor
  | .docs => cats.docs
  | .other => cats.other

/-- The category the if/elif chain assigns to a message. -/
def catOf (msg : Str) : Cat :=
  if "feat".data.isPrefixOf msg then .feat
  else if "fix".data.isPrefixOf msg then .fix
  else if "perf".data.isPrefixOf msg then .perf
  else if "refactor".data.isPrefixOf msg then .refactor
  else if "docs".data.isPrefixOf msg then .docs
  else .other

/-- Model of `re.sub(r"^<pre>[:\s]*", "", msg)`: if `pre` is a literal prefix of
`msg`, remove it together with the following run of `':'`/whitespace
characters; otherwise the (anchored, at-most-one-match) substitution leaves
`msg` unchanged.  (Python's `\s` also covers `\f`/`\v` and Unicode spaces;
the messages of interest only carry the whitespace in `Char.isWhitespace`.) -/
def stripPre (pre : Str) (msg : Str) : Str :=
  if pre.isPrefixOf msg then
    (msg.drop pre.length).dropWhile (fun c => c = ':' || c.isWhitespace)
  else msg

/-- Python `"\n".join(lines)`. -/
def joinLines : List Str → Str
  | [] => []
  | [l] => l
  | l :: l2 :: ls => l ++ '\n' :: joinLines (l2 :: ls)

/-- Function `generate_release_notes` from `release.py`, as a function of the result
of the `git log` query performed when a previous tag is given.  Python's
`if prev_tag:` is truthiness: `None` and the empty string both skip the
section-building block. -/
def generate_release_notes (version : Str) (prev_tag : Option Str) (logRes : QueryResult) : Str :=
  let line0 : Str := "## v".data ++ version ++ ['\n']
  let truthy : Bool := match prev_tag with
    | none => false
    | some t => !t.isEmpty
  if truthy then
    let cats := categorize_commits (get_commits_since_tag logRes)
    let l1 : List Str :=
      if !cats.feat.isEmpty then
        "## ✨ New Features\n".data ::
          cats.feat.map (fun m => "- ".data ++ stripPre "feat".data m) ++ [[]]
      else []
    let l2 : List Str :=
      if !cats.fix.isEmpty then
        "## 🐛 Bug Fixes\n".data ::
          cats.fix.map (fun m => "- ".data ++ stripPre "fix".data m) ++ [[]]
      else []
    let l3 : List Str :=
      if !cats.perf.isEmpty then
        "## ⚡ Performance\n".data ::
          cats.perf.map (fun m => "- ".data ++ stripPre "perf".data m) ++ [[]]
      else []
    let l4 : List Str :=
      if !cats.refactor.isEmpty then
        "## 🔧 Internal Changes\n".data ::
          cats.refactor.map (fun m => "- ".data ++ stripPre "refactor".data m) ++ [[]]
      else []
    joinLines (line0 :: (l1 ++ l2 ++ l3 ++ l4))
  else joinLines [line0]

example : get_latest_tag ⟨0, some "v2.1.0\nv1.0.0\n".data⟩ = some "2.1.0".data := by decide
example : increment_version "1.2.3".data "minor".data = some "1.3.0".data := by decide
example :
    get_commits_since_tag ⟨0, some "feat: a|ab|me\nbad\nfix: b|cd|me\n".data⟩ =
      [⟨"feat: a".data, "ab".data⟩, ⟨"fix: b".data, "cd".data⟩] := by decide

/-- Spec-side description of one rendered category block (from §4.5 of the
spec): if the bucket is non-empty, a titled section — the fixed heading
line, then one `"- "` bullet per message with the category's
conventional-commit prefix stripped, then a blank separator line; an empty
bucket produces no section. -/
def sectionFor (title pre : Str) (msgs : List Str) : List Str :=
  if msgs = [] then []
  else (title :: msgs.map (fun m => "- ".data ++ stripPre pre m)) ++ [[]]

/-! ### Categorization lemmas -/

theorem bucket_initCats (k : Cat) : bucket initCats k = [] := by
  cases k <;> rfl

theorem bucket_addCommit (cats : Categories) (c : Commit) (k : Cat) :
    bucket (addCommit cats c) k =
      if catOf c.message = k then bucket cats k ++ [c.message] else bucket cats k := by
  cases k <;> simp only [addCommit, catOf] <;> split_ifs <;> simp_all [bucket]

theorem bucket_foldl (cs : List Commit) : ∀ (cats : Categories) (k : Cat),
    bucket (cs.foldl addCommit cats) k =
      bucket cats k ++ (cs.map Commit.message).filter (fun m => decide (catOf m = k)) := by
  induction cs with
  | nil => simp
  | cons c rest ih =>
    intro cats k
    simp only [List.foldl_cons, List.map_cons, List.filter_cons]
    rw [ih, bucket_addCommit]
    by_cases h : catOf c.message = k <;> simp [h]

theorem bucket_categorize (cs : List Commit) (k : Cat) :
    bucket (categorize_commits cs) k =
      (cs.map Commit.message).filter (fun m => decide (catOf m = k)) := by
  have h := bucket_foldl cs initCats k
  simpa [categorize_commits, bucket_initCats] using h

theorem filter_cat_length_sum (msgs : List Str) :
    (msgs.filter (fun m => decide (catOf m = Cat.feat))).length +
      (msgs.filter (fun m => decide (catOf m = Cat.fix))).length +
      (msgs.filter (fun m => decide (catOf m = Cat.perf))).length +
      (msgs.filter (fun m => decide (catOf m = Cat.refactor))).length +
      (msgs.filter (fun m => decide (catOf m = Cat.docs))).length +
      (msgs.filter (fun m => decide (catOf m = Cat.other))).length = msgs.length := by
  induction msgs with
  | nil => simp
  | cons m rest ih =>
    simp only [List.filter_cons]
    cases h : catOf m <;> simp [h] <;> omega

/-- C1: `categorize_commits` is total and partitions its input.  The six
keys are present by construction (`Categories` is a record with the six
fields, `initCats` starting each at the empty sequence, so `bucket` is
defined at every key even on empty input); every bucket is the order-
preserving filter of the input messages by assigned category (hence each
message lands in exactly one bucket and keeps input order), and the six
bucket lengths sum to the input length. -/
theorem categorize_commits_partition (cs : List Commit) :
    (∀ k : Cat, bucket (categorize_commits cs) k =
        (cs.map Commit.message).filter (fun m => decide (catOf m = k)))
    ∧ ((categorize_commits cs).feat.length + (categorize_commits cs).fix.length +
        (categorize_commits cs).perf.length + (categorize_commits cs).refactor.length +
        (categorize_commits cs).docs.length + (categorize_commits cs).other.length
          = cs.length)
    ∧ (∀ (msg : Str) (k : Cat),
        msg ∈ bucket (categorize_commits cs) k ↔
          msg ∈ cs.map Commit.message ∧ catOf msg = k) := by
  refine ⟨fun k => bucket_categorize cs k, ?_, ?_⟩
  · have h1 := bucket_categorize cs Cat.feat
    have h2 := bucket_categorize cs Cat.fix
    have h3 := bucket_categorize cs Cat.perf
    have h4 := bucket_categorize cs Cat.refactor
    have h5 := bucket_categorize cs Cat.docs
    have h6 := bucket_categorize cs Cat.other
    simp only [bucket] at h1 h2 h3 h4 h5 h6
    rw [h1, h2, h3, h4, h5, h6]
    have := filter_cat_length_sum (cs.map Commit.message)
    simpa using this
  · intro msg k
    rw [bucket_categorize]
    simp [List.mem_filter]

/-- C7: `categorize_commits` assigns each commit to the first category in
the fixed order `feat, fix, perf, refactor, docs` whose name is a
case-sensitive literal prefix of the message (plain starts-with — so
`"featuring"` matches `feat`), and to `other` when none matches; in
particular `"feat: perf improvements"` goes to `feat`, not `perf`. -/
theorem categorize_commits_first_match :
    (∀ (cs : List Commit) (c : Commit), c ∈ cs →
        c.message ∈ bucket (categorize_commits cs) (catOf c.message))
    ∧ (∀ msg : Str, catOf msg = Cat.feat ↔ "feat".data.isPrefixOf msg = true)
    ∧ (∀ msg : Str, catOf msg = Cat.fix ↔
        ("feat".data.isPrefixOf msg = false ∧ "fix".data.isPrefixOf msg = true))
    ∧ (∀ msg : Str, catOf msg = Cat.perf ↔
        ("feat".data.isPrefixOf msg = false ∧ "fix".data.isPrefixOf msg = false ∧
          "perf".data.isPrefixOf msg = true))
    ∧ (∀ msg : Str, catOf msg = Cat.refactor ↔
        ("feat".data.isPrefixOf msg = false ∧ "fix".data.isPrefixOf msg = false ∧
          "perf".data.isPrefixOf msg = false ∧ "refactor".data.isPrefixOf msg = true))
    ∧ (∀ msg : Str, catOf msg = Cat.docs ↔
        ("feat".data.isPrefixOf msg = false ∧ "fix".data.isPrefixOf msg = false ∧
          "perf".data.isPrefixOf msg = false ∧ "refactor".data.isPrefixOf msg = false ∧
          "docs".data.isPrefixOf msg = true))
    ∧ (∀ msg : Str, catOf msg = Cat.other ↔
        ("feat".data.isPrefixOf msg = false ∧ "fix".data.isPrefixOf msg = false ∧
          "perf".data.isPrefixOf msg = false ∧ "refactor".data.isPrefixOf msg = false ∧
          "docs".data.isPrefixOf msg = false))
    ∧ catOf "feat: perf improvements".data = Cat.feat
    ∧ catOf "featuring".data = Cat.feat := by
  refine ⟨?_, ?_, ?_, ?_, ?_, ?_, ?_, by decide, by decide⟩
  · intro cs c hc
    rw [bucket_categorize]
    simp only [List.mem_filter, List.mem_map, decide_eq_true_eq]
    exact ⟨⟨c, hc, rfl⟩, by simp⟩
  all_goals intro msg
  all_goals unfold catOf
  all_goals split_ifs <;> simp_all [Bool.eq_false_iff, ne_eq]

theorem categorize_commits_first_match_witness :
    "feat: perf improvements".data ∈
      bucket (categorize_commits [⟨"feat: perf improvements".data, "a".data⟩])
        (catOf "feat: perf improvements".data) :=
  categorize_commits_first_match.1 [⟨"feat: perf improvements".data, "a".data⟩]
    ⟨"feat: perf improvements".data, "a".data⟩ (List.mem_singleton.mpr rfl)

/-! ### Soft failure and commit-line parsing -/

/-- C5: on any query failure — non-zero exit status, or absent/empty/blank
output — `get_latest_tag` returns `none` and `get_commits_since_tag`
returns `[]`.  (Both functions are total Lean functions, so no exception is
possible by construction.) -/
theorem query_failure_soft (res : QueryResult) :
    (res.returncode ≠ 0 → get_latest_tag res = none ∧ get_commits_since_tag res = [])
    ∧ (stripStr (res.stdout.getD []) = [] →
        get_latest_tag res = none ∧ get_commits_since_tag res = []) := by
  constructor
  · intro h
    refine ⟨by simp [get_latest_tag, h], by simp [get_commits_since_tag, h]⟩
  · intro h
    constructor
    · unfold get_latest_tag
      split_ifs with hrc
      · rfl
      · rw [h]; rfl
    · simp [get_commits_since_tag, h]

theorem query_failure_soft_witness :
    (get_latest_tag ⟨128, some "v1.0.0\n".data⟩ = none ∧
      get_commits_since_tag ⟨128, some "v1.0.0\n".data⟩ = []) ∧
    (get_latest_tag ⟨0, none⟩ = none ∧ get_commits_since_tag ⟨0, none⟩ = []) :=
  ⟨(query_failure_soft ⟨128, some "v1.0.0\n".data⟩).1 (by decide),
   (query_failure_soft ⟨0, none⟩).2 (by decide)⟩

theorem splitOnCharMax_length (sep : Char) : ∀ (m : Nat) (s : Str),
    (splitOnCharMax sep m s).length ≤ m + 1 := by
  intro m s
  induction s generalizing m with
  | nil => simp [splitOnCharMax]
  | cons c rest ih =>
    cases m with
    | zero => simp [splitOnCharMax]
    | succ m' =>
      simp only [splitOnCharMax]
      split_ifs with h
      · have := ih m'
        simp only [List.length_cons]
        omega
      · cases hs : splitOnCharMax sep (m' + 1) rest with
        | nil => simp
        | cons r rs =>
          have := ih (m' + 1)
          rw [hs] at this
          simp only [List.length_cons] at this ⊢
          omega

/-- C6: `get_commits_since_tag` splits each output line on `'|'` into at
most 3 parts, accepts a line iff it yields at least 2 parts (message =
first part, hash = second part; the author part is not retained — `Commit`
has no author field), silently drops shorter lines, and preserves
multi-byte non-ASCII subjects exactly, as on the Japanese two-commit
example. -/
theorem get_commits_since_tag_parsing :
    (∀ line : Str, (splitOnCharMax '|' 2 line).length ≤ 3)
    ∧ (∀ (line m hsh : Str) (rest : List Str),
        splitOnCharMax '|' 2 line = m :: hsh :: rest → parseCommitLine line = some ⟨m, hsh⟩)
    ∧ (∀ line : Str, (splitOnCharMax '|' 2 line).length < 2 → parseCommitLine line = none)
    ∧ get_commits_since_tag
        ⟨0, some "feat: 日本語の新機能|abc1234|author\nfix: バグ修正|def5678|author\n".data⟩ =
      [⟨"feat: 日本語の新機能".data, "abc1234".data⟩,
        ⟨"fix: バグ修正".data, "def5678".data⟩] := by
  refine ⟨fun line => by simpa using splitOnCharMax_length '|' 2 line, ?_, ?_, by decide⟩
  · intro line m hsh rest hsplit
    unfold parseCommitLine
    rw [hsplit]
  · intro line hlen
    unfold parseCommitLine
    cases hs : splitOnCharMax '|' 2 line with
    | nil => rfl
    | cons a as =>
      cases as with
      | nil => rfl
      | cons b bs =>
        rw [hs] at hlen
        simp at hlen
        omega

theorem get_commits_since_tag_parsing_witness :
    parseCommitLine "a|b|c".data = some ⟨"a".data, "b".data⟩ :=
  get_commits_since_tag_parsing.2.1 "a|b|c".data "a".data "b".data ["c".data] (by decide)

/-! ### Tag matching: declarative characterization -/

/-- A non-empty all-digit character group (`\d+`). -/
def digitStr (s : Str) : Prop := s ≠ [] ∧ ∀ c ∈ s, c.isDigit = true

/-- The language of `^v?\d+\.\d+\.\d+$`, stated declaratively. -/
def semverShape (s : Str) : Prop :=
  ∃ d1 d2 d3 : Str, digitStr d1 ∧ digitStr d2 ∧ digitStr d3 ∧
    (s = d1 ++ '.' :: (d2 ++ '.' :: d3) ∨ s = 'v' :: (d1 ++ '.' :: (d2 ++ '.' :: d3)))

theorem takeWhile_all {p : Char → Bool} :
    ∀ l : Str, (∀ c ∈ l, p c = true) → l.takeWhile p = l := by
  intro l h
  induction l with
  | nil => rfl
  | cons c rest ih =>
    rw [List.takeWhile_cons, h c (List.mem_cons_self c rest)]
    simp only [ite_true]
    rw [ih fun d hd => h d (List.mem_cons_of_mem c hd)]

theorem dropWhile_all {p : Char → Bool} :
    ∀ l : Str, (∀ c ∈ l, p c = true) → l.dropWhile p = [] := by
  intro l h
  induction l with
  | nil => rfl
  | cons c rest ih =>
    rw [List.dropWhile_cons, h c (List.mem_cons_self c rest)]
    simp only [ite_true]
    exact ih fun d hd => h d (List.mem_cons_of_mem c hd)

theorem takeWhile_app_all {p : Char → Bool} :
    ∀ (l1 : Str) (x : Char) (l2 : Str), (∀ c ∈ l1, p c = true) → p x = false →
      (l1 ++ x :: l2).takeWhile p = l1 := by
  intro l1 x l2 h hx
  induction l1 with
  | nil => simp [List.takeWhile_cons, hx]
  | cons c rest ih =>
    rw [List.cons_append, List.takeWhile_cons, h c (List.mem_cons_self c rest)]
    simp only [ite_true]
    rw [ih fun d hd => h d (List.mem_cons_of_mem c hd)]

theorem dropWhile_app_all {p : Char → Bool} :
    ∀ (l1 : Str) (x : Char) (l2 : Str), (∀ c ∈ l1, p c = true) → p x = false →
      (l1 ++ x :: l2).dropWhile p = x :: l2 := by
  intro l1 x l2 h hx
  induction l1 with
  | nil => simp [List.dropWhile_cons, hx]
  | cons c rest ih =>
    rw [List.cons_append, List.dropWhile_cons, h c (List.mem_cons_self c rest)]
    simp only [ite_true]
    exact ih fun d hd => h d (List.mem_cons_of_mem c hd)

theorem all_takeWhile {p : Char → Bool} :
    ∀ l : Str, ∀ c ∈ l.takeWhile p, p c = true := by
  intro l
  induction l with
  | nil => simp
  | cons c rest ih =>
    rw [List.takeWhile_cons]
    by_cases h : p c
    · simp only [h, ite_true]
      intro d hd
      rcases List.mem_cons.mp hd with h1 | h2
      · rwa [h1]
      · exact ih d h2
    · simp [h]

theorem matchNum3_iff (s : Str) :
    matchNum3 s = true ↔
      ∃ d1 d2 d3 : Str, digitStr d1 ∧ digitStr d2 ∧ digitStr d3 ∧
        s = d1 ++ '.' :: (d2 ++ '.' :: d3) := by
  constructor
  · intro h
    unfold matchNum3 at h
    simp only [Bool.and_eq_true, Bool.not_eq_true', List.isEmpty_eq_false] at h
    obtain ⟨h1, h⟩ := h
    split at h
    case _ r1' heq1 =>
      simp only [Bool.and_eq_true, Bool.not_eq_true', List.isEmpty_eq_false] at h
      obtain ⟨h2, h⟩ := h
      split at h
      case _ r2' heq2 =>
        simp only [Bool.and_eq_true, Bool.not_eq_true', List.isEmpty_eq_false,
          List.isEmpty_iff] at h
        obtain ⟨h3, h4⟩ := h
        refine ⟨s.takeWhile Char.isDigit, r1'.takeWhile Char.isDigit,
          r2'.takeWhile Char.isDigit, ⟨h1, all_takeWhile s⟩,
          ⟨h2, all_takeWhile r1'⟩, ⟨h3, all_takeWhile r2'⟩, ?_⟩
        have e3 : r2'.takeWhile Char.isDigit = r2' := by
          have := List.takeWhile_append_dropWhile (p := Char.isDigit) (l := r2')
          rw [h4, List.append_nil] at this
          exact this
        have e2 : r1' = r1'.takeWhile Char.isDigit ++ '.' :: r2' := by
          have := List.takeWhile_append_dropWhile (p := Char.isDigit) (l := r1')
          rw [heq2] at this
          exact this.symm
        have e1 : s = s.takeWhile Char.isDigit ++ '.' :: r1' := by
          have := List.takeWhile_append_dropWhile (p := Char.isDigit) (l := s)
          rw [heq1] at this
          exact this.symm
        calc s = s.takeWhile Char.isDigit ++ '.' :: r1' := e1
          _ = s.takeWhile Char.isDigit ++
              '.' :: (r1'.takeWhile Char.isDigit ++ '.' :: r2') := by rw [← e2]
          _ = s.takeWhile Char.isDigit ++
              '.' :: (r1'.takeWhile Char.isDigit ++
                '.' :: r2'.takeWhile Char.isDigit) := by rw [e3]
      all_goals simp at h
    all_goals simp at h
  · rintro ⟨d1, d2, d3, ⟨h1ne, h1d⟩, ⟨h2ne, h2d⟩, ⟨h3ne, h3d⟩, rfl⟩
    have hdot : Char.isDigit '.' = false := by decide
    unfold matchNum3
    rw [takeWhile_app_all d1 '.' (d2 ++ '.' :: d3) h1d hdot,
      dropWhile_app_all d1 '.' (d2 ++ '.' :: d3) h1d hdot]
    simp only [Bool.and_eq_true, Bool.not_eq_true', List.isEmpty_eq_false]
    refine ⟨h1ne, ?_⟩
    rw [takeWhile_app_all d2 '.' d3 h2d hdot, dropWhile_app_all d2 '.' d3 h2d hdot]
    simp only [Bool.and_eq_true, Bool.not_eq_true', List.isEmpty_eq_false]
    refine ⟨h2ne, ?_⟩
    rw [takeWhile_all d3 h3d, dropWhile_all d3 h3d]
    simp [h3ne]

theorem matchSemverTag_iff (s : Str) : matchSemverTag s = true ↔ semverShape s := by
  unfold matchSemverTag semverShape
  cases s with
  | nil =>
    rw [if_neg (by simp), matchNum3_iff]
    constructor
    · rintro ⟨d1, d2, d3, h1, h2, h3, heq⟩
      exact ⟨d1, d2, d3, h1, h2, h3, Or.inl heq⟩
    · rintro ⟨d1, d2, d3, h1, h2, h3, heq | heq⟩
      · exact ⟨d1, d2, d3, h1, h2, h3, heq⟩
      · cases heq
  | cons c rest =>
    by_cases hc : c = 'v'
    · subst hc
      rw [if_pos (by simp), List.tail_cons, matchNum3_iff]
      constructor
      · rintro ⟨d1, d2, d3, h1, h2, h3, heq⟩
        exact ⟨d1, d2, d3, h1, h2, h3, Or.inr (by rw [heq])⟩
      · rintro ⟨d1, d2, d3, h1, h2, h3, heq | heq⟩
        · exfalso
          obtain ⟨h1ne, h1d⟩ := h1
          cases d1 with
          | nil => exact h1ne rfl
          | cons a d1' =>
            rw [List.cons_append] at heq
            injection heq with ha _
            have := h1d a (List.mem_cons_self a d1')
            rw [← ha] at this
            cases this
        · injection heq with _ hrest
          exact ⟨d1, d2, d3, h1, h2, h3, by rw [hrest]⟩
    · rw [if_neg (by simp [hc]), matchNum3_iff]
      constructor
      · rintro ⟨d1, d2, d3, h1, h2, h3, heq⟩
        exact ⟨d1, d2, d3, h1, h2, h3, Or.inl heq⟩
      · rintro ⟨d1, d2, d3, h1, h2, h3, heq | heq⟩
        · exact ⟨d1, d2, d3, h1, h2, h3, heq⟩
        · injection heq with ha _
          exact absurd ha hc

theorem findTag_eq_none_iff (tags : List Str) :
    findTag tags = none ↔ ∀ t ∈ tags, matchSemverTag t = false := by
  induction tags with
  | nil => simp [findTag]
  | cons a rest ih =>
    unfold findTag
    split_ifs with h
    · constructor
      · intro hx; cases hx
      · intro hall
        rw [hall a (List.mem_cons_self a rest)] at h
        cases h
    · rw [ih]
      constructor
      · intro hall t ht
        rcases List.mem_cons.mp ht with rfl | ht'
        · exact Bool.eq_false_iff.mpr h
        · exact hall t ht'
      · intro hall t ht
        exact hall t (List.mem_cons_of_mem a ht)

theorem findTag_eq_some_iff (tags : List Str) (s : Str) :
    findTag tags = some s ↔
      ∃ pre t post, tags = pre ++ t :: post ∧ (∀ u ∈ pre, matchSemverTag u = false) ∧
        matchSemverTag t = true ∧ s = lstripV t := by
  induction tags generalizing s with
  | nil =>
    constructor
    · intro h; cases h
    · rintro ⟨pre, t, post, h, -, -, -⟩
      exact absurd h.symm (by simp)
  | cons a rest ih =>
    unfold findTag
    split_ifs with h
    · constructor
      · intro hs
        injection hs with hs'
        exact ⟨[], a, rest, rfl, by simp, h, hs'.symm⟩
      · rintro ⟨pre, t, post, hdecomp, hpre, ht, rfl⟩
        cases pre with
        | nil =>
          simp only [List.nil_append] at hdecomp
          injection hdecomp with h1 h2
          rw [h1]
        | cons b pre' =>
          rw [List.cons_append] at hdecomp
          injection hdecomp with h1 h2
          have hb := hpre b (List.mem_cons_self b pre')
          rw [← h1] at hb
          rw [hb] at h
          cases h
    · rw [ih]
      constructor
      · rintro ⟨pre, t, post, hdecomp, hpre, ht, hs⟩
        refine ⟨a :: pre, t, post, by rw [hdecomp, List.cons_append], ?_, ht, hs⟩
        intro u hu
        rcases List.mem_cons.mp hu with rfl | hu'
        · exact Bool.eq_false_iff.mpr h
        · exact hpre u hu'
      · rintro ⟨pre, t, post, hdecomp, hpre, ht, hs⟩
        cases pre with
        | nil =>
          simp only [List.nil_append] at hdecomp
          injection hdecomp with h1 h2
          rw [← h1] at ht
          exact absurd ht h
        | cons b pre' =>
          rw [List.cons_append] at hdecomp
          injection hdecomp with h1 h2
          exact ⟨pre', t, post, h2, fun u hu => hpre u (List.mem_cons_of_mem b hu), ht, hs⟩

/-! ### Decimal rendering round-trip -/

theorem digitChar_isDigit (d : Nat) (h : d < 10) : (digitChar d).isDigit = true := by
  interval_cases d <;> decide

theorem digitChar_toNat (d : Nat) (h : d < 10) : (digitChar d).toNat = 48 + d := by
  interval_cases d <;> decide

theorem natToStrAux_digits : ∀ (f n : Nat), ∀ c ∈ natToStrAux f n, c.isDigit = true := by
  intro f
  induction f with
  | zero =>
    intro n c hc
    simp [natToStrAux] at hc
  | succ f ih =>
    intro n c hc
    cases n with
    | zero => simp [natToStrAux] at hc
    | succ m =>
      rw [natToStrAux] at hc
      rcases List.mem_append.mp hc with h1 | h2
      · exact ih _ c h1
      · rw [List.mem_singleton] at h2
        rw [h2]
        exact digitChar_isDigit _ (Nat.mod_lt _ (by norm_num))

theorem natToStrAux_foldl : ∀ (f n : Nat), n ≤ f → ∀ acc : Nat,
    (natToStrAux f n).foldl (fun a c => a * 10 + (c.toNat - 48)) acc =
      acc * 10 ^ (natToStrAux f n).length + n := by
  intro f
  induction f with
  | zero =>
    intro n hn acc
    have h0 : n = 0 := Nat.le_zero.mp hn
    subst h0
    simp [natToStrAux]
  | succ f ih =>
    intro n hn acc
    cases n with
    | zero => simp [natToStrAux]
    | succ m =>
      rw [natToStrAux, List.foldl_append]
      have hq10 : (m + 1) / 10 ≤ f := by
        have := Nat.div_lt_self (Nat.succ_pos m) (by norm_num : 1 < 10)
        omega
      rw [ih ((m + 1) / 10) hq10 acc]
      simp only [List.foldl_cons, List.foldl_nil, List.length_append, List.length_cons,
        List.length_nil]
      rw [digitChar_toNat _ (Nat.mod_lt _ (by norm_num))]
      have hdm : 10 * ((m + 1) / 10) + (m + 1) % 10 = m + 1 := Nat.div_add_mod (m + 1) 10
      generalize hqd : (m + 1) / 10 = q at hdm ⊢
      generalize hrd : (m + 1) % 10 = r at hdm ⊢
      have h48 : 48 + r - 48 = r := by omega
      rw [h48, pow_succ]
      have hring : (acc * 10 ^ (natToStrAux f q).length + q) * 10 + r =
          acc * (10 ^ (natToStrAux f q).length * 10) + (10 * q + r) := by ring
      rw [hring, hdm]

theorem natToStr_ne_nil (n : Nat) : natToStr n ≠ [] := by
  unfold natToStr
  split_ifs with h
  · simp
  · cases n with
    | zero => exact absurd rfl h
    | succ m =>
      rw [natToStrAux]
      simp

theorem natToStr_digits (n : Nat) : ∀ c ∈ natToStr n, c.isDigit = true := by
  unfold natToStr
  split_ifs with h
  · intro c hc
    rw [List.mem_singleton] at hc
    rw [hc]
    decide
  · exact natToStrAux_digits n n

theorem parseNat?_natToStr (n : Nat) : parseNat? (natToStr n) = some n := by
  unfold parseNat?
  rw [if_pos]
  · cases n with
    | zero => rfl
    | succ m =>
      have h := natToStrAux_foldl (m + 1) (m + 1) (le_refl _) 0
      unfold natToStr
      rw [if_neg (by omega)]
      rw [h]
      simp
  · simp only [Bool.and_eq_true, Bool.not_eq_true', List.isEmpty_eq_false, List.all_eq_true]
    exact ⟨natToStr_ne_nil n, fun c hc => natToStr_digits n c hc⟩

theorem dot_not_mem_natToStr (n : Nat) : '.' ∉ natToStr n := by
  intro hmem
  have := natToStr_digits n '.' hmem
  cases this

/-! ### splitOnChar structure lemmas -/

theorem splitOnChar_not_mem (sep : Char) : ∀ s : Str, sep ∉ s → splitOnChar sep s = [s] := by
  intro s h
  induction s with
  | nil => rfl
  | cons c rest ih =>
    have hc : ¬c = sep := fun hc => h (by rw [hc]; exact List.mem_cons_self sep rest)
    have hrest : sep ∉ rest := fun hr => h (List.mem_cons_of_mem c hr)
    simp only [splitOnChar]
    rw [if_neg hc, ih hrest]

theorem splitOnChar_append (sep : Char) : ∀ (l1 l2 : Str), sep ∉ l1 →
    splitOnChar sep (l1 ++ sep :: l2) = l1 :: splitOnChar sep l2 := by
  intro l1 l2 h
  induction l1 with
  | nil => simp [splitOnChar]
  | cons c rest ih =>
    have hc : ¬c = sep := fun hc => h (by rw [hc]; exact List.mem_cons_self sep rest)
    have hrest : sep ∉ rest := fun hr => h (List.mem_cons_of_mem c hr)
    rw [List.cons_append]
    simp only [splitOnChar]
    rw [if_neg hc, ih hrest]

theorem parseVersion_render (a b c : Nat) :
    parseVersion (natToStr a ++ '.' :: (natToStr b ++ '.' :: natToStr c)) = some [a, b, c] := by
  unfold parseVersion
  rw [splitOnChar_append '.' (natToStr a) _ (dot_not_mem_natToStr a),
    splitOnChar_append '.' (natToStr b) _ (dot_not_mem_natToStr b),
    splitOnChar_not_mem '.' (natToStr c) (dot_not_mem_natToStr c)]
  simp [List.mapM.loop, parseNat?_natToStr]

/-- C4: on a successful query (exit status 0) whose output is a
newline-separated tag list, `get_latest_tag` scans the list in order and
returns the first tag whose full string matches optional leading `v`
followed by `digits.digits.digits` with no trailing characters
(`semverShape`), with the leading `v` removed; tags such as
`"v1.2.3-beta"`, `"v1.2.3-rc1"` or `"1.2"` are never selected, and if no
tag matches it returns `none`.  For the list `["v2.1.0", "v1.0.0"]` it
returns `"2.1.0"`. -/
theorem get_latest_tag_first_semver :
    (∀ s : Str, matchSemverTag s = true ↔ semverShape s)
    ∧ (∀ res : QueryResult, res.returncode = 0 →
        get_latest_tag res = findTag (splitOnChar '\n' (stripStr (res.stdout.getD []))))
    ∧ (∀ tags : List Str, findTag tags = none ↔ ∀ t ∈ tags, matchSemverTag t = false)
    ∧ (∀ (tags : List Str) (s : Str), findTag tags = some s ↔
        ∃ pre t post, tags = pre ++ t :: post ∧ (∀ u ∈ pre, matchSemverTag u = false) ∧
          matchSemverTag t = true ∧ s = lstripV t)
    ∧ matchSemverTag "v1.2.3-beta".data = false
    ∧ matchSemverTag "v1.2.3-rc1".data = false
    ∧ matchSemverTag "1.2".data = false
    ∧ get_latest_tag ⟨0, some "v2.1.0\nv1.0.0\n".data⟩ = some "2.1.0".data := by
  refine ⟨matchSemverTag_iff, ?_, findTag_eq_none_iff, findTag_eq_some_iff,
    by decide, by decide, by decide, by decide⟩
  intro res h
  unfold get_latest_tag
  rw [if_neg (by simp [h])]

theorem get_latest_tag_first_semver_witness :
    get_latest_tag ⟨0, some "v1.2.3-beta\n1.2\n".data⟩ =
      findTag (splitOnChar '\n'
        (stripStr ((⟨0, some "v1.2.3-beta\n1.2\n".data⟩ : QueryResult).stdout.getD []))) :=
  get_latest_tag_first_semver.2.1 ⟨0, some "v1.2.3-beta\n1.2\n".data⟩ rfl

/-- C3: on a version string whose dot-separated parts parse as `[a, b, c]`
(three non-negative integers), `increment_version` returns `(a+1).0.0` for
bump `"major"`, `a.(b+1).0` for `"minor"`, and `a.b.(c+1)` for `"patch"`
and for any other (unrecognized) bump kind; with the three concrete
examples from the spec. -/
theorem increment_version_cases :
    (∀ (version : Str) (a b c : Nat), parseVersion version = some [a, b, c] →
      increment_version version "major".data = some (natToStr (a + 1) ++ ".0.0".data)
      ∧ increment_version version "minor".data =
          some (natToStr a ++ ['.'] ++ natToStr (b + 1) ++ ".0".data)
      ∧ ∀ bump : Str, bump ≠ "major".data → bump ≠ "minor".data →
          increment_version version bump =
            some (natToStr a ++ ['.'] ++ natToStr b ++ ['.'] ++ natToStr (c + 1)))
    ∧ increment_version "1.0.0".data "patch".data = some "1.0.1".data
    ∧ increment_version "1.2.3".data "minor".data = some "1.3.0".data
    ∧ increment_version "1.2.3".data "major".data = some "2.0.0".data := by
  refine ⟨?_, by decide, by decide, by decide⟩
  intro version a b c h
  refine ⟨?_, ?_, ?_⟩
  · simp only [increment_version, h]
    rfl
  · simp only [increment_version, h]
    rfl
  · intro bump hmaj hmin
    simp only [increment_version, h]
    split_ifs with h1
    · exact absurd h1 hmaj
    · rfl

theorem increment_version_cases_witness :
    increment_version "9.9.9".data "major".data = some (natToStr (9 + 1) ++ ".0.0".data) :=
  (increment_version_cases.1 "9.9.9".data 9 9 9 (by decide)).1

/-- C2: for every version string parsing as three non-negative integers
`[a, b, c]` and every bump kind, `increment_version` yields the canonical
rendering of a triple `[a2, b2, c2]` (it parses back to that triple) that
is strictly greater than `(a, b, c)` in lexicographic order. -/
theorem increment_version_increases (version : Str) (bump : Str) (a b c : Nat)
    (h : parseVersion version = some [a, b, c]) :
    ∃ a2 b2 c2 : Nat,
      increment_version version bump =
        some (natToStr a2 ++ '.' :: (natToStr b2 ++ '.' :: natToStr c2))
      ∧ parseVersion (natToStr a2 ++ '.' :: (natToStr b2 ++ '.' :: natToStr c2)) =
          some [a2, b2, c2]
      ∧ (a < a2 ∨ (a = a2 ∧ (b < b2 ∨ (b = b2 ∧ c < c2)))) := by
  by_cases hmaj : bump = "major".data
  · refine ⟨a + 1, 0, 0, ?_, parseVersion_render _ _ _, Or.inl (Nat.lt_succ_self a)⟩
    subst hmaj
    simp only [increment_version, h]
    rfl
  · by_cases hmin : bump = "minor".data
    · refine ⟨a, b + 1, 0, ?_, parseVersion_render _ _ _,
        Or.inr ⟨rfl, Or.inl (Nat.lt_succ_self b)⟩⟩
      subst hmin
      simp only [increment_version, h]
      show some (natToStr a ++ ['.'] ++ natToStr (b + 1) ++ ".0".data) =
        some (natToStr a ++ '.' :: (natToStr (b + 1) ++ '.' :: natToStr 0))
      simp only [List.append_assoc]
      rfl
    · refine ⟨a, b, c + 1, ?_, parseVersion_render _ _ _,
        Or.inr ⟨rfl, Or.inr ⟨rfl, Nat.lt_succ_self c⟩⟩⟩
      simp only [increment_version, h]
      split_ifs with h1
      · exact absurd h1 hmaj
      · show some (natToStr a ++ ['.'] ++ natToStr b ++ ['.'] ++ natToStr (c + 1)) =
          some (natToStr a ++ '.' :: (natToStr b ++ '.' :: natToStr (c + 1)))
        simp only [List.append_assoc]
        rfl

theorem increment_version_increases_witness :
    ∃ a2 b2 c2 : Nat,
      increment_version "1.2.3".data "patch".data =
        some (natToStr a2 ++ '.' :: (natToStr b2 ++ '.' :: natToStr c2))
      ∧ parseVersion (natToStr a2 ++ '.' :: (natToStr b2 ++ '.' :: natToStr c2)) =
          some [a2, b2, c2]
      ∧ (1 < a2 ∨ (1 = a2 ∧ (2 < b2 ∨ (2 = b2 ∧ 3 < c2)))) :=
  increment_version_increases "1.2.3".data "patch".data 1 2 3 (by decide)

/-- C8: with a (truthy) previous tag, `generate_release_notes` emits after
the version heading one titled section per non-empty bucket among `feat`,
`fix`, `perf`, `refactor` in exactly that order, each with its fixed
emoji+label heading and one `"- "` bullet per message with the category
prefix stripped (`stripPre`, the `re.sub` model); `docs` and `other` are
never rendered and empty buckets produce no section.  On the spec's
Japanese two-commit example the notes contain `v1.1.0` and the two
subjects with their `feat:`/`fix:` prefixes stripped. -/
theorem generate_release_notes_sections :
    (∀ (version t : Str) (logRes : QueryResult), t ≠ [] →
      generate_release_notes version (some t) logRes =
        joinLines (("## v".data ++ version ++ ['\n']) ::
          (sectionFor "## ✨ New Features\n".data "feat".data
              (categorize_commits (get_commits_since_tag logRes)).feat ++
            sectionFor "## 🐛 Bug Fixes\n".data "fix".data
              (categorize_commits (get_commits_since_tag logRes)).fix ++
            sectionFor "## ⚡ Performance\n".data "perf".data
              (categorize_commits (get_commits_since_tag logRes)).perf ++
            sectionFor "## 🔧 Internal Changes\n".data "refactor".data
              (categorize_commits (get_commits_since_tag logRes)).refactor)))
    ∧ "v1.1.0".data <:+:
        generate_release_notes "1.1.0".data (some "1.0.0".data)
          ⟨0, some "feat: 新機能追加|abc1234|author\nfix: バグ修正|def5678|author\n".data⟩
    ∧ "- 新機能追加".data <:+:
        generate_release_notes "1.1.0".data (some "1.0.0".data)
          ⟨0, some "feat: 新機能追加|abc1234|author\nfix: バグ修正|def5678|author\n".data⟩
    ∧ "- バグ修正".data <:+:
        generate_release_notes "1.1.0".data (some "1.0.0".data)
          ⟨0, some "feat: 新機能追加|abc1234|author\nfix: バグ修正|def5678|author\n".data⟩ := by
  refine ⟨?_, by decide, by decide, by decide⟩
  intro version t logRes ht
  simp only [generate_release_notes, sectionFor]
  rw [if_pos (by simp [ht])]
  split_ifs <;> simp_all [List.isEmpty_iff]

/-- C9: `generate_release_notes` always emits the heading `## v{version}`
first, and with no previous tag it emits nothing further — the output is
exactly the heading line, so (for the spec's example version) it contains
none of the four category section headers. -/
theorem generate_release_notes_no_prev :
    (∀ (version : Str) (logRes : QueryResult),
      generate_release_notes version none logRes = "## v".data ++ version ++ ['\n'])
    ∧ (∀ logRes : QueryResult,
        ¬("## ✨".data <:+: generate_release_notes "1.0.0".data none logRes)
        ∧ ¬("## 🐛".data <:+: generate_release_notes "1.0.0".data none logRes)
        ∧ ¬("## ⚡".data <:+: generate_release_notes "1.0.0".data none logRes)
        ∧ ¬("## 🔧".data <:+: generate_release_notes "1.0.0".data none logRes)) := by
  refine ⟨fun version logRes => rfl, fun logRes => ?_⟩
  have h : generate_release_notes "1.0.0".data none logRes = "## v1.0.0\n".data := rfl
  rw [h]
  refine ⟨by decide, by decide, by decide, by decide⟩

/-- C10: the render-time pass-through branch of the prefix-stripping
substitution is unreachable for bucketed messages: whenever the category
token is a literal prefix of the message — the membership condition of its
bucket — the regex `^<pre>[:\s]*` matches (the colon/whitespace part may be
empty), so the token is removed even with no colon or space after it;
`"featuring X"` in the `feat` bucket renders as the bullet `"- uring X"`. -/
theorem stripPre_always_matches :
    (∀ (pre msg : Str), pre.isPrefixOf msg = true →
      stripPre pre msg = (msg.drop pre.length).dropWhile (fun c => c = ':' || c.isWhitespace))
    ∧ stripPre "feat".data "featuring X".data = "uring X".data
    ∧ "- uring X".data <:+:
        generate_release_notes "1.0.0".data (some "0.9.0".data)
          ⟨0, some "featuring X|abc1234|me\n".data⟩ := by
  refine ⟨?_, by decide, by decide⟩
  intro pre msg h
  unfold stripPre
  rw [if_pos h]

theorem stripPre_always_matches_witness :
    stripPre "feat".data "featuring X".data =
      ("featuring X".data.drop "feat".data.length).dropWhile
        (fun c => c = ':' || c.isWhitespace) :=
  stripPre_always_matches.1 "feat".data "featuring X".data (by decide)

theorem generate_release_notes_sections_witness :
    generate_release_notes "1.1.0".data (some "1.0.0".data)
        ⟨0, some "feat: 新機能追加|abc1234|author\nfix: バグ修正|def5678|author\n".data⟩ =
      joinLines (("## v".data ++ "1.1.0".data ++ ['\n']) ::
        (sectionFor "## ✨ New Features\n".data "feat".data
            (categorize_commits (get_commits_since_tag
              ⟨0, some "feat: 新機能追加|abc1234|author\nfix: バグ修正|def5678|author\n".data⟩)).feat ++
          sectionFor "## 🐛 Bug Fixes\n".data "fix".data
            (categorize_commits (get_commits_since_tag
              ⟨0, some "feat: 新機能追加|abc1234|author\nfix: バグ修正|def5678|author\n".data⟩)).fix ++
          sectionFor "## ⚡ Performance\n".data "perf".data
            (categorize_commits (get_commits_since_tag
              ⟨0, some "feat: 新機能追加|abc1234|author\nfix: バグ修正|def5678|author\n".data⟩)).perf ++
          sectionFor "## 🔧 Internal Changes\n".data "refactor".data
            (categorize_commits (get_commits_since_tag
              ⟨0, some "feat: 新機能追加|abc1234|author\nfix: バグ修正|def5678|author\n".data⟩)).refactor)) :=
  generate_release_notes_sections.1 "1.1.0".data "1.0.0".data
    ⟨0, some "feat: 新機能追加|abc1234|author\nfix: バグ修正|def5678|author\n".data⟩
    (by decide)
